import Mathlib

/-!
# proxyapi-bot: the SSE aggregator and the per-update unit of work

A shallow embedding of `listenToSSEStream`, `createAndRunAssistantWithStreaming`
and the goroutine body of `handleTelegramUpdates` from `main.go`.

Modelling conventions.

* A Go `string` is modelled as the list of its Unicode code points (the stream is
  taken to be valid UTF-8 text).  `line[6:]` after a successful
  `strings.HasPrefix(line, "data: ")` removes six ASCII bytes, which are six code
  points.
* A Go `error` value is either the sentinel `io.EOF` or an error with a message.
* `resp.Body` wrapped in a `bufio.Reader` is the sequence of code points that the
  transport delivers, followed by the error that the transport reports once those
  are exhausted (`io.EOF` for a normal end of stream).
* `json.Unmarshal` belongs to the Go standard library; the aggregator is
  parameterised by it, and a concrete decoder `jsonUnmarshal` is supplied for
  evaluating the aggregator on concrete streams.
* Log emissions (`slog`) are omitted, except that evaluating the argument
  `update.Message.From.ID` of a log entry panics when `From` is nil; a panic is
  recorded in the field `panicked` of a `Run`.
-/

set_option autoImplicit false

namespace ProxyApiBot

/-- Go `string`, as a list of code points. -/
abbrev GoString := List Char

/-- Go `error` values that occur in the aggregator: `io.EOF` or an error with a
message (`errors.New`, `fmt.Errorf`, transport errors). -/
inductive GoError where
  | EOF
  | errorString (msg : GoString)
  deriving DecidableEq, Repr

/-- The method `Error()` of an `error`. -/
def GoError.Error : GoError → GoString
  | .EOF => "EOF".toList
  | .errorString msg => msg

/-- The state of `bufio.NewReader(resp.Body)`: the unread code points, and the error
the underlying transport reports after them. -/
structure Reader where
  data : GoString
  err : GoError
  deriving DecidableEq, Repr

/-- Splits `s` at the first occurrence of `delim`: the text up to and including the
delimiter and the text after it; `none` when `delim` does not occur. -/
def cutAt (delim : Char) : GoString → Option (GoString × GoString)
  | [] => none
  | c :: rest =>
    if c = delim then some ([c], rest)
    else
      match cutAt delim rest with
      | some (line, rest') => some (c :: line, rest')
      | none => none

/-- The method `(*bufio.Reader).ReadString`: reads until the first occurrence of
`delim` and returns the text read, the delimiter included; when the data ends before
a delimiter is found, it returns the text read so far together with the error. -/
def Reader.ReadString (r : Reader) (delim : Char) : GoString × Option GoError × Reader :=
  match cutAt delim r.data with
  | some (line, rest) => (line, none, { r with data := rest })
  | none => (r.data, some r.err, { r with data := [] })

/-- The predicate `unicode.IsSpace`. -/
def isSpace (c : Char) : Bool :=
  let n := c.toNat
  (9 ≤ n && n ≤ 13) || n = 0x20 || n = 0x85 || n = 0xA0 || n = 0x1680 ||
  (0x2000 ≤ n && n ≤ 0x200A) || n = 0x2028 || n = 0x2029 || n = 0x202F ||
  n = 0x205F || n = 0x3000

/-- Removes the trailing white space of `s` (`strings.TrimRightFunc(s, unicode.IsSpace)`). -/
def trimRight (s : GoString) : GoString :=
  (s.reverse.dropWhile isSpace).reverse

/-- The function `strings.TrimSpace`: `s` without leading and trailing white space. -/
def TrimSpace (s : GoString) : GoString :=
  trimRight (s.dropWhile isSpace)

/-- The function `strings.HasPrefix`. -/
def HasPrefix (s pre : GoString) : Bool :=
  decide (pre.length ≤ s.length) && s.take pre.length == pre

/-- A decoded JSON value, as `json.Unmarshal` stores it in an `interface{}`:
`nil`, `bool`, `float64` (kept as its literal), `string`, `[]interface{}` and
`map[string]interface{}` (as an association list with distinct keys). -/
inductive JSON where
  | null
  | bool (b : Bool)
  | number (lit : GoString)
  | string (s : GoString)
  | array (elems : List JSON)
  | object (fields : List (GoString × JSON))

/-- Go `map[string]interface{}`. -/
abbrev JSONMap := List (GoString × JSON)

/-- Index expression `m[key]` on a `map[string]interface{}`; `none` is the `nil`
interface obtained for an absent key. -/
def JSONMap.index (m : JSONMap) (key : GoString) : Option JSON :=
  match m with
  | [] => none
  | (k, v) :: rest => if k = key then some v else JSONMap.index rest key

/-- Type assertion `v.(string)`. -/
def assertString : Option JSON → Option GoString
  | some (.string s) => some s
  | _ => none

/-- Type assertion `v.(map[string]interface{})`. -/
def assertMap : Option JSON → Option JSONMap
  | some (.object fields) => some fields
  | _ => none

/-- Type assertion `v.([]interface{})`. -/
def assertSlice : Option JSON → Option (List JSON)
  | some (.array elems) => some elems
  | _ => none

/-- One iteration of `for _, part := range content`: appends `part.text.value` to the
message when the part is an object whose `text` is an object whose `value` is a
string. -/
def appendPart (finalMessage : GoString) (part : JSON) : GoString :=
  match assertMap (some part) with
  | some textPart =>
    match assertMap (textPart.index "text".toList) with
    | some text =>
      match assertString (text.index "value".toList) with
      | some value => finalMessage ++ value
      | none => finalMessage
    | none => finalMessage
  | none => finalMessage

/-- The block guarded by `obj == "thread.message.delta"`: walks `delta.content` and
appends every text value to the message.  (The source comment above the block calls
it the message-completion event; the block only appends and reading goes on.) -/
def appendDelta (event : JSONMap) (finalMessage : GoString) : GoString :=
  if assertString (event.index "object".toList) = some "thread.message.delta".toList then
    match assertMap (event.index "delta".toList) with
    | some delta =>
      match assertSlice (delta.index "content".toList) with
      | some content => content.foldl appendPart finalMessage
      | none => finalMessage
    | none => finalMessage
  else finalMessage

/-- How one iteration of the read loop ends after a line was read: `next` stands for
reaching the end of the loop body or `continue`, `stop` for `break`. -/
inductive Step where
  | next (finalMessage : GoString)
  | stop (finalMessage : GoString)
  deriving DecidableEq, Repr

/-- The body of the read loop of `listenToSSEStream` after a successful
`ReadString`, for the line `line` and the message accumulated so far. -/
def processLine (unmarshal : GoString → Except GoError JSONMap)
    (line : GoString) (finalMessage : GoString) : Step :=
  let line := TrimSpace line
  if line.length = 0 then .next finalMessage
  else if HasPrefix line "data: ".toList then
    let eventData := line.drop 6
    if eventData = "[DONE]".toList then .stop finalMessage
    else
      match unmarshal eventData with
      | .error _ => .next finalMessage
      | .ok event =>
        let finalMessage := appendDelta event finalMessage
        if assertString (event.index "object".toList) = some "thread.message.completed".toList then
          .stop finalMessage
        else .next finalMessage
  else .next finalMessage

/-- How the read loop of `listenToSSEStream` is left: by `break` with the message
accumulated so far, or by the `return` for a read error. -/
inductive LoopExit where
  | broke (finalMessage : GoString)
  | returned (result : GoString × Option GoError)
  deriving DecidableEq, Repr

set_option linter.unusedVariables false in
/-- The read loop `for { line, err := reader.ReadString('\n') ... }` of
`listenToSSEStream`. -/
def sseLoop (unmarshal : GoString → Except GoError JSONMap)
    (reader : Reader) (finalMessage : GoString) : LoopExit :=
  match h : reader.ReadString '\n' with
  | (_, some err, _) =>
    if err = GoError.EOF then .broke finalMessage
    else .returned ([], some (.errorString ("Ошибка чтения события: ".toList ++ err.Error)))
  | (line, none, reader') =>
    match processLine unmarshal line finalMessage with
    | .next finalMessage' => sseLoop unmarshal reader' finalMessage'
    | .stop finalMessage' => .broke finalMessage'
termination_by reader.data.length
decreasing_by
  have key : ∀ (s line rest : GoString),
      cutAt '\n' s = some (line, rest) → rest.length < s.length := by
    intro s
    induction s with
    | nil => intro line rest hs; simp [cutAt] at hs
    | cons c s ih =>
      intro line rest hs
      unfold cutAt at hs
      split at hs
      · simp only [Option.some.injEq, Prod.mk.injEq] at hs
        rw [← hs.2]; simp
      · cases hc : cutAt '\n' s with
        | none => simp [hc] at hs
        | some p =>
          obtain ⟨l, r⟩ := p
          simp only [hc, Option.some.injEq, Prod.mk.injEq] at hs
          have hlt := ih l r hc
          rw [← hs.2]; simp only [List.length_cons]; omega
  unfold Reader.ReadString at h
  cases hc : cutAt '\n' reader.data with
  | none => simp [hc] at h
  | some p =>
    obtain ⟨l, rest⟩ := p
    simp only [hc, Prod.mk.injEq, true_and] at h
    rw [← h.2]
    exact key _ _ _ hc

/-- The function `listenToSSEStream`, applied to the reader over `resp.Body`: the
returned text and error. -/
def listenToSSEStream (unmarshal : GoString → Except GoError JSONMap)
    (body : Reader) : GoString × Option GoError :=
  match sseLoop unmarshal body [] with
  | .returned result => result
  | .broke finalMessage =>
    if finalMessage = [] then
      ([], some (.errorString "Пустой ответ от ассистента".toList))
    else (finalMessage, none)

/-! ### A concrete decoder for `json.Unmarshal` into a `map[string]interface{}` -/

/-- JSON insignificant white space: space, tab, carriage return, line feed. -/
def isJSONSpace (c : Char) : Bool :=
  c = ' ' || c = '\t' || c = '\r' || c = '\n'

/-- Skips JSON white space. -/
def skipSpace (s : GoString) : GoString :=
  s.dropWhile isJSONSpace

/-- Value of a hexadecimal digit. -/
def hexDigit (c : Char) : Option Nat :=
  let n := c.toNat
  if 48 ≤ n ∧ n ≤ 57 then some (n - 48)
  else if 97 ≤ n ∧ n ≤ 102 then some (n - 87)
  else if 65 ≤ n ∧ n ≤ 70 then some (n - 55)
  else none

/-- Value of the four hexadecimal digits of a `\uXXXX` escape. -/
def hex4 (a b c d : Char) : Option Nat :=
  match hexDigit a, hexDigit b, hexDigit c, hexDigit d with
  | some x, some y, some z, some w => some (((x * 16 + y) * 16 + z) * 16 + w)
  | _, _, _, _ => none

/-- The character denoted by a one-letter escape. -/
def simpleEscape (c : Char) : Option Char :=
  if c = '"' then some '"'
  else if c = '\\' then some '\\'
  else if c = '/' then some '/'
  else if c = 'b' then some (Char.ofNat 8)
  else if c = 'f' then some (Char.ofNat 12)
  else if c = 'n' then some '\n'
  else if c = 'r' then some '\r'
  else if c = 't' then some '\t'
  else none

/-- Decodes the low half of a surrogate pair written `\uXXXX` at the head of `s`,
for the high half `hi`: the combined character and the rest of the text. -/
def lowSurrogate (hi : Nat) (s : GoString) : Option (Char × GoString) :=
  match s with
  | '\\' :: 'u' :: a :: b :: c :: d :: rest =>
    match hex4 a b c d with
    | some lo =>
      if 0xDC00 ≤ lo ∧ lo ≤ 0xDFFF then
        some (Char.ofNat (0x10000 + (hi - 0xD800) * 0x400 + (lo - 0xDC00)), rest)
      else none
    | none => none
  | _ => none

/-- Reads a JSON string after its opening quote: the decoded text and what follows
the closing quote.  Control characters are rejected; a `\u` escape that is half of
an incomplete surrogate pair decodes to U+FFFD. -/
def parseStringBody : Nat → GoString → Option (GoString × GoString)
  | 0, _ => none
  | _ + 1, [] => none
  | fuel + 1, c :: rest =>
    if c = '"' then some ([], rest)
    else if c = '\\' then
      match rest with
      | 'u' :: a :: b :: c :: d :: rest' =>
        match hex4 a b c d with
        | some n =>
          if 0xD800 ≤ n ∧ n ≤ 0xDBFF then
            match lowSurrogate n rest' with
            | some (ch, rest2) =>
              (parseStringBody fuel rest2).map fun p => (ch :: p.1, p.2)
            | none => (parseStringBody fuel rest').map fun p => (Char.ofNat 0xFFFD :: p.1, p.2)
          else if 0xDC00 ≤ n ∧ n ≤ 0xDFFF then
            (parseStringBody fuel rest').map fun p => (Char.ofNat 0xFFFD :: p.1, p.2)
          else (parseStringBody fuel rest').map fun p => (Char.ofNat n :: p.1, p.2)
        | none => none
      | e :: rest' =>
        match simpleEscape e with
        | some ch => (parseStringBody fuel rest').map fun p => (ch :: p.1, p.2)
        | none => none
      | [] => none
    else if c.toNat < 0x20 then none
    else (parseStringBody fuel rest).map fun p => (c :: p.1, p.2)

/-- Decimal digit test. -/
def isDigit (c : Char) : Bool :=
  decide (48 ≤ c.toNat) && decide (c.toNat ≤ 57)

/-- Reads a non-empty run of decimal digits. -/
def parseDigits (s : GoString) : Option (GoString × GoString) :=
  match s.span isDigit with
  | ([], _) => none
  | (ds, rest) => some (ds, rest)

/-- The value of a run of decimal digits. -/
def digitsValue (ds : GoString) : Nat :=
  ds.foldl (fun n c => n * 10 + (c.toNat - 48)) 0

/-- The least magnitude that `strconv.ParseFloat(s, 64)` rounds to infinity:
`2^1024 - 2^970`, halfway between the largest `float64` and `2^1024`. -/
def float64Overflow : Nat := 2 ^ 1024 - 2 ^ 970

/-- Whether the number `mantissa * 10 ^ exp10`, whose mantissa is written with
`digits` decimal digits, lies outside the `float64` range, in which case
`strconv.ParseFloat` reports a range error.  A number too small for `float64` is
read as zero without an error. -/
def overflowsFloat64 (mantissa digits : Nat) (exp10 : Int) : Bool :=
  if mantissa = 0 then false
  else if 0 ≤ exp10 then
    if 309 ≤ exp10 then true
    else decide (float64Overflow ≤ mantissa * 10 ^ exp10.toNat)
  else
    if digits ≤ (-exp10).toNat then false
    else decide (float64Overflow * 10 ^ (-exp10).toNat ≤ mantissa)

/-- Reads a JSON number, `-? (0 | [1-9][0-9]*) (. [0-9]+)? ([eE] [+-]? [0-9]+)?`,
and returns its literal.  A number outside the `float64` range is refused: the
decoder reports a type error for it. -/
def parseNumber (s : GoString) : Option (GoString × GoString) :=
  let (sign, s1) := match s with
    | '-' :: r => (['-'], r)
    | _ => ([], s)
  let intPart : Option (GoString × GoString) := match s1 with
    | '0' :: r => some (['0'], r)
    | _ => parseDigits s1
  match intPart with
  | none => none
  | some (ip, s2) =>
    let frac : Option (GoString × GoString) := match s2 with
      | '.' :: r => parseDigits r
      | _ => some ([], s2)
    match frac with
    | none => none
    | some (fp, s3) =>
      let exp : Option ((GoString × Int) × GoString) := match s3 with
        | e :: r =>
          if e = 'e' ∨ e = 'E' then
            match r with
            | sg :: r' =>
              if sg = '+' then
                (parseDigits r').map fun p => ((e :: sg :: p.1, (digitsValue p.1 : Int)), p.2)
              else if sg = '-' then
                (parseDigits r').map fun p => ((e :: sg :: p.1, -(digitsValue p.1 : Int)), p.2)
              else (parseDigits r).map fun p => ((e :: p.1, (digitsValue p.1 : Int)), p.2)
            | [] => none
          else some (([], 0), s3)
        | [] => some (([], 0), s3)
      match exp with
      | none => none
      | some ((ep, ev), s4) =>
        if overflowsFloat64 (digitsValue (ip ++ fp)) (ip ++ fp).length (ev - fp.length) then none
        else some (sign ++ ip ++ (if fp = [] then [] else '.' :: fp) ++ ep, s4)

/-- Map assignment `m[key] = v`: a later value for a key replaces the earlier one. -/
def JSONMap.assign (m : JSONMap) (key : GoString) (v : JSON) : JSONMap :=
  match m with
  | [] => [(key, v)]
  | (k, w) :: rest => if k = key then (k, v) :: rest else (k, w) :: JSONMap.assign rest key v

/-- The nesting depth beyond which the decoder fails (`maxNestingDepth`). -/
def maxNestingDepth : Nat := 10000

/-- The depth check of the scan that `json.Unmarshal` runs over the whole text before
decoding: reads the text from left to right, with `depth` arrays and objects open,
inside a string or not, after a backslash or not, and tells whether an array or an
object is opened when `maxNestingDepth` of them are already open. -/
def exceedsMaxDepth : GoString → Nat → Bool → Bool → Bool
  | [], _, _, _ => false
  | c :: rest, depth, inString, escaped =>
    if inString then
      if escaped then exceedsMaxDepth rest depth true false
      else if c = '\\' then exceedsMaxDepth rest depth true true
      else if c = '"' then exceedsMaxDepth rest depth false false
      else exceedsMaxDepth rest depth true false
    else if c = '"' then exceedsMaxDepth rest depth true false
    else if c = '{' ∨ c = '[' then
      if maxNestingDepth ≤ depth then true else exceedsMaxDepth rest (depth + 1) false false
    else if c = '}' ∨ c = ']' then exceedsMaxDepth rest (depth - 1) false false
    else exceedsMaxDepth rest depth false false

mutual
/-- Reads one JSON value at the head of the text (after optional white space). -/
def parseValue : Nat → GoString → Option (JSON × GoString)
  | 0, _ => none
  | fuel + 1, s =>
    match skipSpace s with
    | [] => none
    | c :: rest =>
      if c = '{' then
        match skipSpace rest with
        | '}' :: rest' => some (.object [], rest')
        | _ => parseMembers fuel rest []
      else if c = '[' then
        match skipSpace rest with
        | ']' :: rest' => some (.array [], rest')
        | _ => parseElements fuel rest []
      else if c = '"' then
        (parseStringBody rest.length rest).map fun p => (.string p.1, p.2)
      else if c = '-' ∨ isDigit c then
        (parseNumber (c :: rest)).map fun p => (.number p.1, p.2)
      else if HasPrefix (c :: rest) "true".toList then some (.bool true, rest.drop 3)
      else if HasPrefix (c :: rest) "false".toList then some (.bool false, rest.drop 4)
      else if HasPrefix (c :: rest) "null".toList then some (.null, rest.drop 3)
      else none
/-- Reads the members of an object up to its closing brace; `acc` holds the members
read so far. -/
def parseMembers : Nat → GoString → JSONMap → Option (JSON × GoString)
  | 0, _, _ => none
  | fuel + 1, s, acc =>
    match skipSpace s with
    | '"' :: rest =>
      match parseStringBody rest.length rest with
      | some (key, rest1) =>
        match skipSpace rest1 with
        | ':' :: rest2 =>
          match parseValue fuel rest2 with
          | some (v, rest3) =>
            match skipSpace rest3 with
            | ',' :: rest4 => parseMembers fuel rest4 (acc.assign key v)
            | '}' :: rest4 => some (.object (acc.assign key v), rest4)
            | _ => none
          | none => none
        | _ => none
      | none => none
    | _ => none
/-- Reads the elements of an array up to its closing bracket; `acc` holds the
elements read so far. -/
def parseElements : Nat → GoString → List JSON → Option (JSON × GoString)
  | 0, _, _ => none
  | fuel + 1, s, acc =>
    match parseValue fuel s with
    | some (v, rest) =>
      match skipSpace rest with
      | ',' :: rest' => parseElements fuel rest' (acc ++ [v])
      | ']' :: rest' => some (.array (acc ++ [v]), rest')
      | _ => none
    | none => none
end

/-- A decoder for `json.Unmarshal([]byte(data), &event)` with `event` a nil
`map[string]interface{}`: a JSON object gives its map, `null` leaves the map nil
(no key present), any other value is a type error and any other text a syntax
error.  The decoder also fails on a number outside the `float64` range and on
arrays and objects nested more than `maxNestingDepth` deep.  Numbers in range are
kept as literals and error messages are abbreviated. -/
def jsonUnmarshal (data : GoString) : Except GoError JSONMap :=
  if exceedsMaxDepth data 0 false false then
    .error (.errorString "json: exceeded max depth".toList)
  else
    match parseValue (data.length + 1) data with
    | some (v, rest) =>
      if skipSpace rest = [] then
        match v with
        | .object fields => .ok fields
        | .null => .ok []
        | _ => .error (.errorString "json: cannot unmarshal into Go value of type map".toList)
      else .error (.errorString "invalid character after top-level value".toList)
    | none => .error (.errorString "json: invalid input".toList)

/-! ### The dispatcher and the per-update unit of work -/

/-- The value of `requestBody` in `createAndRunAssistantWithStreaming`; the entries
`temperature: 1.0`, `top_p: 1.0` and `stream: true` are constants. -/
structure RunRequest where
  assistant_id : GoString
  content : GoString
  vector_store_id : GoString
  deriving DecidableEq, Repr

/-- An `*http.Request`. -/
structure HTTPRequest where
  method : GoString
  url : GoString
  body : GoString
  header : List (GoString × GoString)
  deriving DecidableEq, Repr

/-- What `createAndRunAssistantWithStreaming` takes from outside the repository: the
global `config`, `json.Marshal`, `http.NewRequest` and `(*http.Client).Do`, whose
successful result is the reader over the response body. -/
structure Env where
  ApiURL : GoString
  APIKey : GoString
  Marshal : RunRequest → Except GoError GoString
  NewRequest : GoString → GoString → GoString → Except GoError HTTPRequest
  Do : HTTPRequest → Except GoError Reader

/-- The function `createAndRunAssistantWithStreaming`. -/
def createAndRunAssistantWithStreaming (env : Env)
    (unmarshal : GoString → Except GoError JSONMap)
    (assistantID query vectorStoreID : GoString) : GoString × Option GoError :=
  let requestBody : RunRequest :=
    { assistant_id := assistantID, content := query, vector_store_id := vectorStoreID }
  match env.Marshal requestBody with
  | .error err =>
    ([], some (.errorString ("Ошибка создания тела запроса: ".toList ++ err.Error)))
  | .ok reqBody =>
    match env.NewRequest "POST".toList (env.ApiURL ++ "threads/runs".toList) reqBody with
    | .error err =>
      ([], some (.errorString ("Ошибка создания HTTP-запроса: ".toList ++ err.Error)))
    | .ok req =>
      let req := { req with header := req.header ++
        [("Authorization".toList, "Bearer ".toList ++ env.APIKey),
         ("Content-Type".toList, "application/json".toList),
         ("OpenAI-Beta".toList, "assistants=v2".toList)] }
      match env.Do req with
      | .error err =>
        ([], some (.errorString ("Ошибка выполнения HTTP-запроса: ".toList ++ err.Error)))
      | .ok resp => listenToSSEStream unmarshal resp

/-- The fields of `update.Message` that the handler reads: `Chat.ID`, `From.ID` and
`Text`.  `From` is an optional field of a Telegram message, a pointer that may be
nil; `fromID` is `none` when it is nil.  `Chat` is a mandatory field of a Telegram
message and is taken to be present. -/
structure Message where
  chatID : Int
  fromID : Option Int
  text : GoString
  deriving DecidableEq, Repr

/-- A `tgbotapi.Update`; `message` is `none` for a nil `update.Message`. -/
structure Update where
  message : Option Message
  deriving DecidableEq, Repr

/-- One call `bot.Send(tgbotapi.NewMessage(chatID, text))`. -/
structure Sent where
  chatID : Int
  text : GoString
  deriving DecidableEq, Repr

/-- What a piece of the handler did: the messages it sent, in order, and whether it
ended in a run-time panic (a nil-pointer dereference). -/
structure Run where
  sent : List Sent
  panicked : Bool
  deriving DecidableEq, Repr

/-- The reply sent when the assistant call fails. -/
def genericErrorMessage : GoString := "Ошибка обработки запроса.".toList

/-- The reply of the branch `response == ""`. -/
def noAnswerMessage : GoString := "Ассистент не смог предоставить ответ.".toList

/-- The part of the goroutine that follows the assistant call, for the call result
`(response, err)`.  On the success path the message is sent first and
`update.Message.From.ID` is read afterwards for the log entry, which panics for a
nil `From`. -/
def sendReply (message : Message) (response : GoString) (err : Option GoError) : Run :=
  match err with
  | some _ =>
    { sent := [{ chatID := message.chatID, text := genericErrorMessage }], panicked := false }
  | none =>
    if response = [] then
      { sent := [{ chatID := message.chatID, text := noAnswerMessage }], panicked := false }
    else
      match message.fromID with
      | some _ =>
        { sent := [{ chatID := message.chatID, text := response }], panicked := false }
      | none =>
        { sent := [{ chatID := message.chatID, text := response }], panicked := true }

/-- The goroutine started by `handleTelegramUpdates` for one update. -/
def unitOfWork (env : Env) (unmarshal : GoString → Except GoError JSONMap)
    (assistantID vectorStoreID : GoString) (message : Message) (query : GoString) : Run :=
  let (response, err) :=
    createAndRunAssistantWithStreaming env unmarshal assistantID query vectorStoreID
  sendReply message response err

/-- The body of `for update := range updates`.  For a message with a non-empty text
the loop first reads `localUpdate.Message.From.ID` for the log entry, which panics
for a nil `From` before any goroutine is started; otherwise it starts the goroutine,
whose run is returned.  No goroutine is started for the other updates. -/
def handleUpdate (env : Env) (unmarshal : GoString → Except GoError JSONMap)
    (assistantID vectorStoreID : GoString) (update : Update) : Run :=
  match update.message with
  | some message =>
    if message.text ≠ [] then
      match message.fromID with
      | none => { sent := [], panicked := true }
      | some _ => unitOfWork env unmarshal assistantID vectorStoreID message message.text
    else { sent := [], panicked := false }
  | none => { sent := [], panicked := false }

/-- The function `handleTelegramUpdates` on a finite prefix of the update feed: the
runs of the loop body for the updates, in feed order, up to and including the first
one that panics (a panic ends the process).  The goroutines run concurrently, so no
order between the sends of different updates is modelled. -/
def handleTelegramUpdates (env : Env) (unmarshal : GoString → Except GoError JSONMap)
    (assistantID vectorStoreID : GoString) : List Update → List Run
  | [] => []
  | update :: updates =>
    let run := handleUpdate env unmarshal assistantID vectorStoreID update
    if run.panicked then [run]
    else run :: handleTelegramUpdates env unmarshal assistantID vectorStoreID updates

/-- An environment in which building the request succeeds and the HTTP call answers
with the response body `body`. -/
def envWithBody (body : Reader) : Env :=
  { ApiURL := "https://api.example/".toList
    APIKey := "key".toList
    Marshal := fun r => .ok (r.assistant_id ++ r.content ++ r.vector_store_id)
    NewRequest := fun method url reqBody =>
      .ok { method := method, url := url, body := reqBody, header := [] }
    Do := fun _ => .ok body }

/-- An environment in which the HTTP call fails with the transport error `err`
before any response exists. -/
def envWithFailure (err : GoError) : Env :=
  { envWithBody { data := [], err := .EOF } with Do := fun _ => .error err }

/-! ### Vocabulary of the stream properties -/

/-- The text of a stream made of the lines `lines`, each terminated by a line feed,
followed by the text `tail`. -/
def streamOf : List GoString → GoString → GoString
  | [], tail => tail
  | l :: ls, tail => l ++ '\n' :: streamOf ls tail

/-- Concatenation of a list of texts, in list order. -/
def concat : List GoString → GoString
  | [] => []
  | f :: fs => f ++ concat fs

/-- The payload of the line `l` (given without its line feed) when, once trimmed, it
is prefixed with `data: `. -/
def payloadOf (l : GoString) : Option GoString :=
  let line := TrimSpace (l ++ ['\n'])
  if HasPrefix line "data: ".toList then some (line.drop 6) else none

/-- The line is a `data: [DONE]` line. -/
def isDoneLine (l : GoString) : Bool :=
  payloadOf l == some "[DONE]".toList

/-- The decoded event of a data line other than `[DONE]`, `none` when the payload
fails to decode. -/
def eventOf (unmarshal : GoString → Except GoError JSONMap) (l : GoString) : Option JSONMap :=
  match payloadOf l with
  | some eventData =>
    if eventData = "[DONE]".toList then none
    else
      match unmarshal eventData with
      | .ok event => some event
      | .error _ => none
  | none => none

/-- The line is a data line other than `[DONE]` whose payload fails to decode. -/
def isMalformedLine (unmarshal : GoString → Except GoError JSONMap) (l : GoString) : Bool :=
  match payloadOf l with
  | some eventData =>
    if eventData = "[DONE]".toList then false
    else
      match unmarshal eventData with
      | .ok _ => false
      | .error _ => true
  | none => false

/-- The line carries a `thread.message.completed` event. -/
def isCompletedLine (unmarshal : GoString → Except GoError JSONMap) (l : GoString) : Bool :=
  match eventOf unmarshal l with
  | some event =>
    decide (assertString (event.index "object".toList) = some "thread.message.completed".toList)
  | none => false

/-- The line is a terminator: `data: [DONE]` or a completion event. -/
def isTerminator (unmarshal : GoString → Except GoError JSONMap) (l : GoString) : Bool :=
  isDoneLine l || isCompletedLine unmarshal l

/-- The text value of a content entry, when it carries one. -/
def textValue (part : JSON) : Option GoString :=
  match part with
  | .object textPart =>
    match JSONMap.index textPart "text".toList with
    | some (.object text) =>
      match JSONMap.index text "value".toList with
      | some (.string value) => some value
      | _ => none
    | _ => none
  | _ => none

/-- The delta fragments of an event: the text values of the content entries of a
`thread.message.delta` event, in content-list order. -/
def eventFragments (event : JSONMap) : List GoString :=
  match event.index "object".toList with
  | some (.string obj) =>
    if obj = "thread.message.delta".toList then
      match event.index "delta".toList with
      | some (.object delta) =>
        match JSONMap.index delta "content".toList with
        | some (.array content) => content.filterMap textValue
        | _ => []
      | _ => []
    else []
  | _ => []

/-- The delta fragments carried by a line. -/
def lineFragments (unmarshal : GoString → Except GoError JSONMap) (l : GoString) :
    List GoString :=
  match eventOf unmarshal l with
  | some event => eventFragments event
  | none => []

/-- The delta fragments carried by a list of lines, in arrival order. -/
def fragments (unmarshal : GoString → Except GoError JSONMap) : List GoString → List GoString
  | [] => []
  | l :: ls => lineFragments unmarshal l ++ fragments unmarshal ls

/-- The read loop over lines that are all terminated by a line feed: the state in
which the loop continues after the last line, or the state with which it stopped. -/
def runLines (unmarshal : GoString → Except GoError JSONMap) :
    List GoString → GoString → Step
  | [], finalMessage => .next finalMessage
  | l :: ls, finalMessage =>
    match processLine unmarshal (l ++ ['\n']) finalMessage with
    | .next finalMessage' => runLines unmarshal ls finalMessage'
    | .stop finalMessage' => .stop finalMessage'

/-- The error returned for a stream without accumulated text. -/
def emptyResponseError : GoError :=
  .errorString "Пустой ответ от ассистента".toList

/-- The error returned when reading a line fails with the error `err`. -/
def readError (err : GoError) : GoError :=
  .errorString ("Ошибка чтения события: ".toList ++ err.Error)

/-- The `Hel` event of the concrete scenario. -/
def helLine : GoString :=
  "data: \x7b\"object\":\"thread.message.delta\",\"delta\":\x7b\"content\":[\x7b\"text\":\x7b\"value\":\"Hel\"\x7d\x7d]\x7d\x7d".toList

/-- The `lo` event of the concrete scenario. -/
def loLine : GoString :=
  "data: \x7b\"object\":\"thread.message.delta\",\"delta\":\x7b\"content\":[\x7b\"text\":\x7b\"value\":\"lo\"\x7d\x7d]\x7d\x7d".toList

/-- A delta event whose only text value is the empty string. -/
def emptyDeltaLine : GoString :=
  "data: \x7b\"object\":\"thread.message.delta\",\"delta\":\x7b\"content\":[\x7b\"text\":\x7b\"value\":\"\"\x7d\x7d]\x7d\x7d".toList

/-- The terminator line. -/
def doneLine : GoString := "data: [DONE]".toList

/-- The finalization of `listenToSSEStream` after the read loop was left by `break`
with the message `finalMessage`. -/
def finalize (finalMessage : GoString) : GoString × Option GoError :=
  if finalMessage = [] then ([], some emptyResponseError) else (finalMessage, none)

/-- The message held by a loop state. -/
def Step.message : Step → GoString
  | .next finalMessage => finalMessage
  | .stop finalMessage => finalMessage

/-- A data line whose payload is not JSON. -/
def brokenLine : GoString := "data: \x7b\"object\":".toList

/-- A line carrying a `thread.message.completed` event. -/
def completedLine : GoString :=
  "data: \x7b\"object\":\"thread.message.completed\"\x7d".toList

/-- A comment line of the SSE framing. -/
def commentLine : GoString := ": keep-alive".toList

/-- The terminator line preceded by a space. -/
def indentedDoneLine : GoString := " data: [DONE]".toList

/-! ### The read loop on a stream of lines -/

theorem cutAt_line (l rest : GoString) (h : '\n' ∉ l) :
    cutAt '\n' (l ++ '\n' :: rest) = some (l ++ ['\n'], rest) := by
  induction l with
  | nil => simp [cutAt]
  | cons c l ih =>
    have hc : c ≠ '\n' := fun e => h (by simp [e])
    have hl : '\n' ∉ l := fun e => h (by simp [e])
    simp [cutAt, hc, ih hl]

theorem cutAt_none (t : GoString) (h : '\n' ∉ t) : cutAt '\n' t = none := by
  induction t with
  | nil => simp [cutAt]
  | cons c t ih =>
    have hc : c ≠ '\n' := fun e => h (by simp [e])
    have hl : '\n' ∉ t := fun e => h (by simp [e])
    simp [cutAt, hc, ih hl]

theorem sseLoop_line (um : GoString → Except GoError JSONMap) (l rest : GoString)
    (err : GoError) (fm : GoString) (h : '\n' ∉ l) :
    sseLoop um ⟨l ++ '\n' :: rest, err⟩ fm =
      match processLine um (l ++ ['\n']) fm with
      | .next fm' => sseLoop um ⟨rest, err⟩ fm'
      | .stop fm' => .broke fm' := by
  have hr : Reader.ReadString ⟨l ++ '\n' :: rest, err⟩ '\n' = (l ++ ['\n'], none, ⟨rest, err⟩) := by
    simp [Reader.ReadString, cutAt_line l rest h]
  rw [sseLoop]
  split
  · rename_i heq
    rw [hr] at heq
    simp at heq
  · rename_i heq
    rw [hr] at heq
    simp only [Prod.mk.injEq, true_and] at heq
    obtain ⟨h1, h2⟩ := heq
    subst h1 h2
    rfl

theorem sseLoop_tail (um : GoString → Except GoError JSONMap) (t : GoString)
    (err : GoError) (fm : GoString) (h : '\n' ∉ t) :
    sseLoop um ⟨t, err⟩ fm =
      if err = GoError.EOF then .broke fm else .returned ([], some (readError err)) := by
  have hr : Reader.ReadString ⟨t, err⟩ '\n' = (t, some err, ⟨[], err⟩) := by
    simp [Reader.ReadString, cutAt_none t h]
  rw [sseLoop]
  split
  · rename_i heq
    rw [hr] at heq
    simp only [Prod.mk.injEq, Option.some.injEq] at heq
    obtain ⟨_, h2, _⟩ := heq
    subst h2
    rfl
  · rename_i heq
    rw [hr] at heq
    simp at heq

theorem sseLoop_streamOf (um : GoString → Except GoError JSONMap) (ls : List GoString)
    (rest : GoString) (err : GoError) (fm : GoString) (h : ∀ l ∈ ls, '\n' ∉ l) :
    sseLoop um ⟨streamOf ls rest, err⟩ fm =
      match runLines um ls fm with
      | .next fm' => sseLoop um ⟨rest, err⟩ fm'
      | .stop fm' => .broke fm' := by
  induction ls generalizing fm with
  | nil => simp [streamOf, runLines]
  | cons l ls ih =>
    have hl : '\n' ∉ l := h l (by simp)
    have hls : ∀ x ∈ ls, '\n' ∉ x := fun x hx => h x (by simp [hx])
    simp only [streamOf, runLines]
    rw [sseLoop_line um l _ err fm hl]
    cases hp : processLine um (l ++ ['\n']) fm with
    | next fm' => simp only [hp]; exact ih fm' hls
    | stop fm' => rfl

theorem concat_append (a b : List GoString) : concat (a ++ b) = concat a ++ concat b := by
  induction a with
  | nil => rfl
  | cons x a ih => simp [concat, ih]

theorem appendPart_eq (fm : GoString) (part : JSON) :
    appendPart fm part = fm ++ concat (Option.toList (textValue part)) := by
  cases part with
  | object textPart =>
    simp only [appendPart, assertMap, textValue]
    cases h1 : JSONMap.index textPart "text".toList with
    | none => simp [assertMap, concat]
    | some v =>
      cases v with
      | object text =>
        simp only [assertMap]
        cases h2 : JSONMap.index text "value".toList with
        | none => simp [assertString, concat]
        | some w => cases w <;> simp [assertString, concat]
      | _ => simp [assertMap, concat]
  | _ => simp [appendPart, assertMap, textValue, concat]

theorem foldl_appendPart (content : List JSON) (fm : GoString) :
    content.foldl appendPart fm = fm ++ concat (content.filterMap textValue) := by
  induction content generalizing fm with
  | nil => simp [concat]
  | cons p ps ih =>
    rw [List.foldl_cons, ih, appendPart_eq]
    cases h : textValue p with
    | none => simp [List.filterMap_cons, h, concat]
    | some v => simp [List.filterMap_cons, h, concat]

theorem appendDelta_eq (event : JSONMap) (fm : GoString) :
    appendDelta event fm = fm ++ concat (eventFragments event) := by
  unfold appendDelta eventFragments
  cases h0 : JSONMap.index event "object".toList with
  | none => simp [assertString, concat]
  | some o =>
    cases o with
    | string obj =>
      simp only [assertString, Option.some.injEq]
      by_cases hobj : obj = "thread.message.delta".toList
      · simp only [hobj, if_true]
        cases h1 : JSONMap.index event "delta".toList with
        | none => simp [assertMap, concat]
        | some d =>
          cases d with
          | object delta =>
            simp only [assertMap]
            cases h2 : JSONMap.index delta "content".toList with
            | none => simp [assertSlice, concat]
            | some c =>
              cases c with
              | array content => simp only [assertSlice]; exact foldl_appendPart content fm
              | _ => simp [assertSlice, concat]
          | _ => simp only [assertMap, concat, List.append_nil]
      · simp only [if_neg hobj, concat, List.append_nil]
    | _ => simp [assertString, concat]

theorem processLine_eq (um : GoString → Except GoError JSONMap) (l fm : GoString) :
    processLine um (l ++ ['\n']) fm =
      if isTerminator um l then .stop (fm ++ concat (lineFragments um l))
      else .next (fm ++ concat (lineFragments um l)) := by
  unfold processLine isTerminator isDoneLine isCompletedLine lineFragments eventOf payloadOf
  simp only []
  by_cases hp : HasPrefix (TrimSpace (l ++ ['\n'])) "data: ".toList = true
  · have hlen : ¬ (TrimSpace (l ++ ['\n'])).length = 0 := by
      intro h0
      have : TrimSpace (l ++ ['\n']) = [] := List.length_eq_zero.mp h0
      rw [this] at hp
      exact absurd hp (by decide)
    rw [if_neg hlen, if_pos hp, if_pos hp]
    by_cases hd : List.drop 6 (TrimSpace (l ++ ['\n'])) = "[DONE]".toList
    · rw [if_pos hd]
      simp [hd, concat]
    · rw [if_neg hd]
      cases hu : um (List.drop 6 (TrimSpace (l ++ ['\n']))) with
      | error e => simp_all [concat]
      | ok event =>
        simp only [appendDelta_eq]
        by_cases hc : assertString (event.index "object".toList) = some "thread.message.completed".toList
        · rw [if_pos hc]; simp_all
        · rw [if_neg hc]; simp_all
  · have hp' : HasPrefix (TrimSpace (l ++ ['\n'])) "data: ".toList = false := by
      simpa using hp
    rw [hp']
    simp [concat]

theorem fragments_append (um : GoString → Except GoError JSONMap) (a b : List GoString) :
    fragments um (a ++ b) = fragments um a ++ fragments um b := by
  induction a with
  | nil => rfl
  | cons x a ih => simp [fragments, ih]

theorem runLines_append (um : GoString → Except GoError JSONMap) (a b : List GoString)
    (fm : GoString) :
    runLines um (a ++ b) fm =
      match runLines um a fm with
      | .next fm' => runLines um b fm'
      | .stop fm' => .stop fm' := by
  induction a generalizing fm with
  | nil => rfl
  | cons l a ih =>
    simp only [List.cons_append, runLines]
    cases hp : processLine um (l ++ ['\n']) fm with
    | next fm' => simp only []; exact ih fm'
    | stop fm' => rfl

theorem runLines_no_terminator (um : GoString → Except GoError JSONMap) (ls : List GoString)
    (fm : GoString) (h : ∀ l ∈ ls, isTerminator um l = false) :
    runLines um ls fm = .next (fm ++ concat (fragments um ls)) := by
  induction ls generalizing fm with
  | nil => simp [runLines, fragments, concat]
  | cons l ls ih =>
    have hl : isTerminator um l = false := h l (by simp)
    have hls : ∀ x ∈ ls, isTerminator um x = false := fun x hx => h x (by simp [hx])
    simp only [runLines, processLine_eq, hl, Bool.false_eq_true, if_false]
    rw [ih _ hls]
    simp [fragments, concat_append, List.append_assoc]

theorem runLines_no_fragments (um : GoString → Except GoError JSONMap) (ls : List GoString)
    (fm : GoString) (h : fragments um ls = []) :
    (runLines um ls fm).message = fm := by
  induction ls generalizing fm with
  | nil => rfl
  | cons l ls ih =>
    simp only [fragments, List.append_eq_nil] at h
    simp only [runLines, processLine_eq, h.1, concat, List.append_nil]
    cases isTerminator um l with
    | true => rfl
    | false => exact ih fm h.2

theorem runLines_terminated (um : GoString → Except GoError JSONMap) (pre : List GoString)
    (t : GoString) (fm : GoString) (ht : isTerminator um t = true) :
    ∃ fm', runLines um (pre ++ [t]) fm = .stop fm' := by
  rw [runLines_append]
  cases runLines um pre fm with
  | stop fm' => exact ⟨fm', rfl⟩
  | next fm' =>
    refine ⟨fm' ++ concat (lineFragments um t), ?_⟩
    simp [runLines, processLine_eq, ht]

theorem listen_of_stop (um : GoString → Except GoError JSONMap) (ls : List GoString)
    (rest : GoString) (err : GoError) (fm : GoString) (h : ∀ l ∈ ls, '\n' ∉ l)
    (hs : runLines um ls [] = .stop fm) :
    listenToSSEStream um ⟨streamOf ls rest, err⟩ = finalize fm := by
  unfold listenToSSEStream
  rw [sseLoop_streamOf um ls rest err [] h, hs]
  rfl

theorem listen_of_next (um : GoString → Except GoError JSONMap) (ls : List GoString)
    (tail : GoString) (err : GoError) (fm : GoString) (h : ∀ l ∈ ls, '\n' ∉ l)
    (ht : '\n' ∉ tail) (hs : runLines um ls [] = .next fm) :
    listenToSSEStream um ⟨streamOf ls tail, err⟩ =
      if err = GoError.EOF then finalize fm else ([], some (readError err)) := by
  unfold listenToSSEStream
  rw [sseLoop_streamOf um ls tail err [] h, hs]
  simp only []
  rw [sseLoop_tail um tail err fm ht]
  by_cases he : err = GoError.EOF
  · rw [if_pos he, if_pos he]; rfl
  · rw [if_neg he, if_neg he]

theorem stream_decomposition (data : GoString) :
    ∃ ls tail, data = streamOf ls tail ∧ (∀ l ∈ ls, '\n' ∉ l) ∧ '\n' ∉ tail := by
  induction data with
  | nil => exact ⟨[], [], rfl, by simp, by simp⟩
  | cons c d ih =>
    obtain ⟨ls, tail, hd, hls, ht⟩ := ih
    by_cases hc : c = '\n'
    · refine ⟨[] :: ls, tail, ?_, ?_, ht⟩
      · simp [streamOf, hd, hc]
      · intro l hl
        rcases List.mem_cons.mp hl with h | h
        · simp [h]
        · exact hls l h
    · cases ls with
      | nil =>
        refine ⟨[], c :: tail, ?_, by simp, ?_⟩
        · simp [streamOf] at hd ⊢; exact hd
        · intro hm
          rcases List.mem_cons.mp hm with h | h
          · exact hc h.symm
          · exact ht h
      | cons l ls' =>
        refine ⟨(c :: l) :: ls', tail, ?_, ?_, ht⟩
        · simp [streamOf] at hd ⊢; exact hd
        · intro x hx
          rcases List.mem_cons.mp hx with h | h
          · subst h
            intro hm
            rcases List.mem_cons.mp hm with h' | h'
            · exact hc h'.symm
            · exact hls l (by simp) h'
          · exact hls x (by simp [h])

theorem isSpace_lf : isSpace '\n' = true := by decide

theorem trimRight_lf (s : GoString) : trimRight (s ++ ['\n']) = trimRight s := by
  simp [trimRight, isSpace_lf]

theorem TrimSpace_lf (l : GoString) : TrimSpace (l ++ ['\n']) = TrimSpace l := by
  unfold TrimSpace
  rw [List.dropWhile_append]
  split
  · rename_i he
    have : List.dropWhile isSpace l = [] := List.isEmpty_iff.mp he
    rw [this]
    simp [List.dropWhile, isSpace_lf, trimRight]
  · exact trimRight_lf _

theorem concat_ne_nil (fs : List GoString) (h : ∃ f ∈ fs, f ≠ []) : concat fs ≠ [] := by
  induction fs with
  | nil => obtain ⟨f, hf, _⟩ := h; simp at hf
  | cons x fs ih =>
    obtain ⟨f, hf, hne⟩ := h
    simp only [concat, ne_eq, List.append_eq_nil, not_and]
    intro hx
    rcases List.mem_cons.mp hf with h1 | h1
    · exact absurd (h1 ▸ hx) hne
    · exact ih ⟨f, h1, hne⟩

theorem finalize_of_ne_nil (fm : GoString) (h : fm ≠ []) : finalize fm = (fm, none) := by
  simp [finalize, h]

theorem isTerminator_doneLine (um : GoString → Except GoError JSONMap) :
    isTerminator um doneLine = true := by
  have h : isDoneLine doneLine = true := by decide
  simp [isTerminator, h]

theorem lineFragments_doneLine (um : GoString → Except GoError JSONMap) :
    lineFragments um doneLine = [] := by
  have h : payloadOf doneLine = some "[DONE]".toList := by decide
  unfold lineFragments eventOf
  rw [h]
  simp

theorem sseLoop_returned (um : GoString → Except GoError JSONMap) (body : Reader)
    (fm : GoString) (result : GoString × Option GoError)
    (h : sseLoop um body fm = .returned result) :
    result = ([], some (readError body.err)) := by
  obtain ⟨data, err⟩ := body
  obtain ⟨ls, tail, hd, hls, ht⟩ := stream_decomposition data
  subst hd
  rw [sseLoop_streamOf um ls tail err fm hls] at h
  cases hr : runLines um ls fm with
  | stop fm' => rw [hr] at h; simp at h
  | next fm' =>
    rw [hr] at h
    simp only [] at h
    rw [sseLoop_tail um tail err fm' ht] at h
    by_cases he : err = GoError.EOF
    · rw [if_pos he] at h; simp at h
    · rw [if_neg he] at h
      simp only [LoopExit.returned.injEq] at h
      exact h.symm

/-- A malformed line is neither a terminator nor a carrier of fragments. -/
theorem processLine_malformed (um : GoString → Except GoError JSONMap) (l fm : GoString)
    (h : isMalformedLine um l = true) : processLine um (l ++ ['\n']) fm = .next fm := by
  rw [processLine_eq]
  unfold isMalformedLine at h
  unfold isTerminator isDoneLine isCompletedLine lineFragments eventOf
  cases hp : payloadOf l with
  | none => simp [concat]
  | some p =>
    rw [hp] at h
    simp only [] at h
    by_cases hd : p = "[DONE]".toList
    · rw [if_pos hd] at h; simp at h
    · rw [if_neg hd] at h
      cases hu : um p with
      | ok ev => rw [hu] at h; simp at h
      | error e => simp_all [concat]

theorem lineFragments_malformed (um : GoString → Except GoError JSONMap) (l : GoString)
    (h : isMalformedLine um l = true) : lineFragments um l = [] := by
  unfold isMalformedLine at h
  unfold lineFragments eventOf
  cases hp : payloadOf l with
  | none => rfl
  | some p =>
    rw [hp] at h
    simp only [] at h ⊢
    by_cases hd : p = "[DONE]".toList
    · rw [if_pos hd]
    · rw [if_neg hd] at h ⊢
      cases hu : um p with
      | ok ev => rw [hu] at h; simp at h
      | error e => rfl

theorem runLines_filter_malformed (um : GoString → Except GoError JSONMap)
    (ls : List GoString) (fm : GoString) :
    runLines um (ls.filter fun l => !isMalformedLine um l) fm = runLines um ls fm := by
  induction ls generalizing fm with
  | nil => rfl
  | cons l ls ih =>
    cases hm : isMalformedLine um l with
    | true =>
      rw [List.filter_cons_of_neg (by simp [hm])]
      simp only [runLines, processLine_malformed um l fm hm]
      exact ih fm
    | false =>
      rw [List.filter_cons_of_pos (by simp [hm])]
      simp only [runLines]
      cases processLine um (l ++ ['\n']) fm with
      | next fm' => exact ih fm'
      | stop fm' => rfl

theorem fragments_filter_malformed (um : GoString → Except GoError JSONMap)
    (ls : List GoString) :
    fragments um (ls.filter fun l => !isMalformedLine um l) = fragments um ls := by
  induction ls with
  | nil => rfl
  | cons l ls ih =>
    cases hm : isMalformedLine um l with
    | true =>
      rw [List.filter_cons_of_neg (by simp [hm])]
      simp [fragments, lineFragments_malformed um l hm, ih]
    | false =>
      rw [List.filter_cons_of_pos (by simp [hm])]
      simp [fragments, ih]

theorem processLine_non_data (um : GoString → Except GoError JSONMap) (l fm : GoString)
    (h : HasPrefix (TrimSpace l) "data: ".toList = false) :
    processLine um (l ++ ['\n']) fm = .next fm := by
  unfold processLine
  simp only []
  rw [TrimSpace_lf, h]
  simp

theorem listen_never_empty_success (um : GoString → Except GoError JSONMap) (body : Reader) :
    listenToSSEStream um body ≠ ([], none) := by
  intro hl
  unfold listenToSSEStream at hl
  cases hs : sseLoop um body [] with
  | returned result =>
    rw [hs] at hl
    simp only [] at hl
    rw [sseLoop_returned um body [] result hs] at hl
    simp at hl
  | broke fm =>
    rw [hs] at hl
    simp only [] at hl
    by_cases hfm : fm = []
    · rw [if_pos hfm] at hl; simp at hl
    · rw [if_neg hfm] at hl
      simp only [Prod.mk.injEq, and_true] at hl
      exact hfm hl

theorem createAndRun_never_empty_success (env : Env)
    (um : GoString → Except GoError JSONMap) (assistantID query vectorStoreID : GoString) :
    createAndRunAssistantWithStreaming env um assistantID query vectorStoreID ≠ ([], none) := by
  unfold createAndRunAssistantWithStreaming
  simp only []
  cases env.Marshal _ with
  | error e => simp
  | ok reqBody =>
    simp only []
    cases env.NewRequest _ _ reqBody with
    | error e => simp
    | ok req =>
      simp only []
      cases env.Do _ with
      | error e => simp
      | ok resp => exact listen_never_empty_success um resp

theorem isTerminator_malformed (um : GoString → Except GoError JSONMap) (l : GoString)
    (h : isMalformedLine um l = true) : isTerminator um l = false := by
  have h1 := processLine_malformed um l [] h
  rw [processLine_eq] at h1
  cases ht : isTerminator um l with
  | false => rfl
  | true => rw [ht] at h1; simp at h1

theorem listen_events_done (um : GoString → Except GoError JSONMap) (ls : List GoString)
    (rest : GoString) (err : GoError) (hlf : ∀ l ∈ ls, '\n' ∉ l)
    (hterm : ∀ l ∈ ls, isTerminator um l = false) :
    listenToSSEStream um ⟨streamOf (ls ++ [doneLine]) rest, err⟩ =
      finalize (concat (fragments um ls)) := by
  have hlf2 : ∀ l ∈ ls ++ [doneLine], '\n' ∉ l := by
    intro l hl
    rcases List.mem_append.mp hl with h | h
    · exact hlf l h
    · have hd : l = doneLine := by simpa using h
      subst hd
      decide
  have hrun : runLines um (ls ++ [doneLine]) [] = .stop (concat (fragments um ls)) := by
    rw [runLines_append, runLines_no_terminator um ls [] hterm]
    simp only [List.nil_append, runLines, processLine_eq, isTerminator_doneLine,
      lineFragments_doneLine, concat, if_true, List.append_nil]
  exact listen_of_stop um _ rest err _ hlf2 hrun

theorem sendReply_sends_one (message : Message) (response : GoString) (err : Option GoError) :
    ∃ text, (sendReply message response err).sent =
        [{ chatID := message.chatID, text := text }] ∧
      (err = none → response ≠ [] → text = response) ∧
      (err ≠ none → text = genericErrorMessage) := by
  cases err with
  | some e => exact ⟨genericErrorMessage, rfl, fun h => by simp at h, fun _ => rfl⟩
  | none =>
    by_cases hr : response = []
    · exact ⟨noAnswerMessage, by simp [sendReply, hr], fun _ hne => absurd hr hne,
        fun h => absurd rfl h⟩
    · refine ⟨response, ?_, fun _ _ => rfl, fun h => absurd rfl h⟩
      unfold sendReply
      simp only [hr, if_false]
      cases message.fromID <;> rfl

theorem unitOfWork_sends_one (env : Env) (um : GoString → Except GoError JSONMap)
    (assistantID vectorStoreID : GoString) (message : Message) (query : GoString) :
    ∃ text, (unitOfWork env um assistantID vectorStoreID message query).sent =
        [{ chatID := message.chatID, text := text }] ∧
      (∀ answer, createAndRunAssistantWithStreaming env um assistantID query
          vectorStoreID = (answer, none) → answer ≠ [] → text = answer) ∧
      (∀ response e, createAndRunAssistantWithStreaming env um assistantID query
          vectorStoreID = (response, some e) → text = genericErrorMessage) := by
  unfold unitOfWork
  cases hc : createAndRunAssistantWithStreaming env um assistantID query vectorStoreID with
  | mk response err =>
    obtain ⟨text, hsent, hok, herr⟩ := sendReply_sends_one message response err
    refine ⟨text, hsent, ?_, ?_⟩
    · intro answer h hne
      simp only [Prod.mk.injEq] at h
      obtain ⟨h1, h2⟩ := h
      subst h1
      exact hok h2 hne
    · intro r e h
      simp only [Prod.mk.injEq] at h
      exact herr (by rw [h.2]; simp)

theorem unitOfWork_of_sender (env : Env) (um : GoString → Except GoError JSONMap)
    (assistantID vectorStoreID : GoString) (message : Message) (query : GoString)
    (userID : Int) (h : message.fromID = some userID) :
    (unitOfWork env um assistantID vectorStoreID message query).panicked = false := by
  unfold unitOfWork
  cases createAndRunAssistantWithStreaming env um assistantID query vectorStoreID with
  | mk response err =>
    cases err with
    | some e => rfl
    | none =>
      by_cases hr : response = []
      · simp [sendReply, hr]
      · simp [sendReply, hr, h]

theorem handleUpdate_without_sender (env : Env) (um : GoString → Except GoError JSONMap)
    (assistantID vectorStoreID : GoString) (chatID : Int) (text : GoString)
    (htext : text ≠ []) :
    handleUpdate env um assistantID vectorStoreID
      { message := some { chatID := chatID, fromID := none, text := text } } =
      { sent := [], panicked := true } := by
  simp [handleUpdate, htext]

/-! ### The claims -/

/-- C1 (amended): for a stream of LF-terminated lines in which every delta fragment
is carried by the lines `events`, none of which is a terminator, followed by lines
`trailer` that carry no fragment and then the line `data: [DONE]`, and in which at
least one fragment is non-empty, `listenToSSEStream` returns successfully and the
returned text is the concatenation of the fragments in arrival order, whatever
follows the `data: [DONE]` line. -/
theorem C1_fragments_then_done (um : GoString → Except GoError JSONMap)
    (events trailer : List GoString) (suffix : GoString) (err : GoError)
    (hlf : ∀ l ∈ events ++ trailer, '\n' ∉ l)
    (hev : ∀ l ∈ events, isTerminator um l = false)
    (htr : fragments um trailer = [])
    (hne : ∃ f ∈ fragments um (events ++ trailer), f ≠ []) :
    listenToSSEStream um ⟨streamOf (events ++ trailer ++ [doneLine]) suffix, err⟩ =
      (concat (fragments um (events ++ trailer)), none) := by
  have hfr : fragments um (events ++ trailer) = fragments um events := by
    rw [fragments_append, htr, List.append_nil]
  have hne := concat_ne_nil _ hne
  rw [hfr] at hne ⊢
  have hlf' : ∀ l ∈ events ++ trailer ++ [doneLine], '\n' ∉ l := by
    intro l hl
    rcases List.mem_append.mp hl with h | h
    · exact hlf l h
    · have : l = doneLine := by simpa using h
      subst this
      decide
  have hrun : runLines um (events ++ trailer ++ [doneLine]) [] =
      .stop (concat (fragments um events)) := by
    rw [List.append_assoc, runLines_append, runLines_no_terminator um events [] hev]
    simp only [List.nil_append]
    rw [runLines_append]
    have hm := runLines_no_fragments um trailer (concat (fragments um events)) htr
    cases hr : runLines um trailer (concat (fragments um events)) with
    | stop fm' => rw [hr] at hm; simp only [Step.message] at hm; rw [hm]
    | next fm' =>
      rw [hr] at hm; simp only [Step.message] at hm
      simp only [runLines, processLine_eq, isTerminator_doneLine, lineFragments_doneLine, concat,
        if_true, List.append_nil, hm]
  rw [listen_of_stop um _ suffix err _ hlf' hrun]
  exact finalize_of_ne_nil _ hne

/-- The concrete scenario of C1: the events `Hel` and `lo` followed by
`data: [DONE]` return `Hello`. -/
theorem C1_fragments_then_done_witness :
    (∀ l ∈ [helLine, loLine] ++ [], '\n' ∉ l) ∧
    (∀ l ∈ [helLine, loLine], isTerminator jsonUnmarshal l = false) ∧
    fragments jsonUnmarshal [] = [] ∧
    (∃ f ∈ fragments jsonUnmarshal ([helLine, loLine] ++ []), f ≠ []) ∧
    listenToSSEStream jsonUnmarshal
      ⟨streamOf ([helLine, loLine] ++ [] ++ [doneLine]) [], GoError.EOF⟩ =
      ("Hello".toList, none) := by
  have h1 : ∀ l ∈ [helLine, loLine] ++ [], '\n' ∉ l := by decide
  have h2 : ∀ l ∈ [helLine, loLine], isTerminator jsonUnmarshal l = false := by decide
  have h3 : fragments jsonUnmarshal [] = [] := rfl
  have h4 : concat (fragments jsonUnmarshal ([helLine, loLine] ++ [])) = "Hello".toList := by
    decide
  have h5 : ∃ f ∈ fragments jsonUnmarshal ([helLine, loLine] ++ []), f ≠ [] :=
    ⟨"Hel".toList, by decide, by decide⟩
  refine ⟨h1, h2, h3, h5, ?_⟩
  rw [C1_fragments_then_done jsonUnmarshal [helLine, loLine] [] [] GoError.EOF h1 h2 h3 h5, h4]

/-- Counterexample to C1 as stated: a well-formed stream that carries one delta
fragment, the empty text, followed by `data: [DONE]` does not return successfully;
it fails with the empty-response error. -/
theorem C1_counterexample_empty_fragment :
    (∀ l ∈ [emptyDeltaLine], '\n' ∉ l) ∧
    (∀ l ∈ [emptyDeltaLine], isTerminator jsonUnmarshal l = false) ∧
    fragments jsonUnmarshal [emptyDeltaLine] = [[]] ∧
    listenToSSEStream jsonUnmarshal ⟨streamOf [emptyDeltaLine, doneLine] [], GoError.EOF⟩ =
      ([], some emptyResponseError) := by
  refine ⟨by decide, by decide, by decide, ?_⟩
  have hrun : runLines jsonUnmarshal [emptyDeltaLine, doneLine] [] = .stop [] := by decide
  rw [listen_of_stop jsonUnmarshal _ [] GoError.EOF [] (by decide) hrun]
  rfl

/-- C2: `listenToSSEStream` never returns a successful empty string.  For every
stream: if the read loop is left by `break` with an empty accumulated text, the
result is the empty-response failure; every successful result has a non-empty text;
and the stream that is immediately `data: [DONE]` fails with the empty-response
error. -/
theorem C2_no_successful_empty_text (um : GoString → Except GoError JSONMap) (body : Reader)
    (err : GoError) :
    (∀ fm, sseLoop um body [] = .broke fm → fm = [] →
      listenToSSEStream um body = ([], some emptyResponseError)) ∧
    (∀ text, listenToSSEStream um body = (text, none) → text ≠ []) ∧
    listenToSSEStream um ⟨streamOf [doneLine] [], err⟩ = ([], some emptyResponseError) := by
  refine ⟨?_, ?_, ?_⟩
  · intro fm hb hfm
    unfold listenToSSEStream
    rw [hb, hfm]
    rfl
  · intro text hl
    unfold listenToSSEStream at hl
    cases hs : sseLoop um body [] with
    | returned result =>
      rw [hs] at hl
      simp only [] at hl
      rw [sseLoop_returned um body [] result hs] at hl
      simp at hl
    | broke fm =>
      rw [hs] at hl
      simp only [] at hl
      by_cases hfm : fm = []
      · rw [if_pos hfm] at hl; simp at hl
      · rw [if_neg hfm] at hl
        simp only [Prod.mk.injEq, and_true] at hl
        rw [← hl]; exact hfm
  · have hrun : runLines um [doneLine] [] = .stop [] := by
      simp [runLines, processLine_eq, isTerminator_doneLine, lineFragments_doneLine, concat]
    rw [listen_of_stop um [doneLine] [] err [] (by decide) hrun]
    rfl

/-- C2 at the stream `data: [DONE]` and at the `Hello` stream. -/
theorem C2_no_successful_empty_text_witness :
    sseLoop jsonUnmarshal ⟨streamOf [doneLine] [], GoError.EOF⟩ [] = .broke [] ∧
    listenToSSEStream jsonUnmarshal ⟨streamOf [doneLine] [], GoError.EOF⟩ =
      ([], some emptyResponseError) ∧
    listenToSSEStream jsonUnmarshal ⟨streamOf [helLine, loLine, doneLine] [], GoError.EOF⟩ =
      ("Hello".toList, none) ∧
    "Hello".toList ≠ [] := by
  have hb : sseLoop jsonUnmarshal ⟨streamOf [doneLine] [], GoError.EOF⟩ [] = .broke [] := by
    rw [sseLoop_streamOf jsonUnmarshal [doneLine] [] GoError.EOF [] (by decide)]
    have hrun : runLines jsonUnmarshal [doneLine] [] = .stop [] := by decide
    rw [hrun]
  have hh : listenToSSEStream jsonUnmarshal
      ⟨streamOf [helLine, loLine, doneLine] [], GoError.EOF⟩ = ("Hello".toList, none) := by
    have hrun : runLines jsonUnmarshal [helLine, loLine, doneLine] [] = .stop "Hello".toList := by
      decide
    rw [listen_of_stop jsonUnmarshal _ [] GoError.EOF _ (by decide) hrun]
    rfl
  exact ⟨hb,
    (C2_no_successful_empty_text jsonUnmarshal ⟨streamOf [doneLine] [], GoError.EOF⟩
      GoError.EOF).1 [] hb rfl,
    hh,
    (C2_no_successful_empty_text jsonUnmarshal
      ⟨streamOf [helLine, loLine, doneLine] [], GoError.EOF⟩ GoError.EOF).2.1 "Hello".toList hh⟩

/-- C3: malformed data lines do not abort accumulation.  For every stream of
LF-terminated lines, `listenToSSEStream` returns the same result as on the stream
from which the data lines whose payload fails to decode were removed, and removing
them leaves the fragments of the stream unchanged.  When the remaining lines are
events that do not terminate the stream and carry at least one non-empty fragment,
the stream followed by `data: [DONE]`, and the stream ended by EOF, both return
successfully the concatenation of only the valid fragments in arrival order. -/
theorem C3_malformed_lines_skipped (um : GoString → Except GoError JSONMap)
    (ls : List GoString) (rest : GoString) (err : GoError)
    (hlf : ∀ l ∈ ls, '\n' ∉ l) :
    listenToSSEStream um ⟨streamOf ls rest, err⟩ =
      listenToSSEStream um ⟨streamOf (ls.filter fun l => !isMalformedLine um l) rest, err⟩ ∧
    fragments um (ls.filter fun l => !isMalformedLine um l) = fragments um ls ∧
    ((∀ l ∈ ls.filter (fun l => !isMalformedLine um l), isTerminator um l = false) →
      (∃ f ∈ fragments um (ls.filter fun l => !isMalformedLine um l), f ≠ []) →
      listenToSSEStream um ⟨streamOf (ls ++ [doneLine]) rest, err⟩ =
        (concat (fragments um (ls.filter fun l => !isMalformedLine um l)), none) ∧
      ('\n' ∉ rest → listenToSSEStream um ⟨streamOf ls rest, GoError.EOF⟩ =
        (concat (fragments um (ls.filter fun l => !isMalformedLine um l)), none))) := by
  refine ⟨?_, fragments_filter_malformed um ls, ?_⟩
  · have hlf2 : ∀ l ∈ ls.filter (fun l => !isMalformedLine um l), '\n' ∉ l :=
      fun l hl => hlf l (List.mem_of_mem_filter hl)
    unfold listenToSSEStream
    rw [sseLoop_streamOf um ls rest err [] hlf, sseLoop_streamOf um _ rest err [] hlf2,
      runLines_filter_malformed]
  · intro hvalid hne
    have hterm : ∀ l ∈ ls, isTerminator um l = false := by
      intro l hl
      cases hm : isMalformedLine um l with
      | true => exact isTerminator_malformed um l hm
      | false => exact hvalid l (List.mem_filter.mpr ⟨hl, by simp [hm]⟩)
    rw [fragments_filter_malformed] at hne ⊢
    have hfin := finalize_of_ne_nil _ (concat_ne_nil _ hne)
    refine ⟨?_, ?_⟩
    · rw [listen_events_done um ls rest err hlf hterm, hfin]
    · intro hrest
      have hrun := runLines_no_terminator um ls [] hterm
      rw [List.nil_append] at hrun
      rw [listen_of_next um ls rest GoError.EOF _ hlf hrest hrun, if_pos rfl, hfin]

/-- C3 at the `Hel` and `lo` events with a malformed line before each: the result is
that of the stream without the malformed lines, and it is `Hello`, both when the
stream ends with `data: [DONE]` and when it ends with EOF. -/
theorem C3_malformed_lines_skipped_witness :
    (∀ l ∈ [brokenLine, helLine, brokenLine, loLine], '\n' ∉ l) ∧
    isMalformedLine jsonUnmarshal brokenLine = true ∧
    List.filter (fun l => !isMalformedLine jsonUnmarshal l)
      [brokenLine, helLine, brokenLine, loLine] = [helLine, loLine] ∧
    (∀ l ∈ [helLine, loLine], isTerminator jsonUnmarshal l = false) ∧
    (∃ f ∈ fragments jsonUnmarshal [helLine, loLine], f ≠ []) ∧
    '\n' ∉ ([] : GoString) ∧
    listenToSSEStream jsonUnmarshal
      ⟨streamOf [brokenLine, helLine, brokenLine, loLine] [], GoError.EOF⟩ =
      listenToSSEStream jsonUnmarshal ⟨streamOf [helLine, loLine] [], GoError.EOF⟩ ∧
    listenToSSEStream jsonUnmarshal
      ⟨streamOf ([brokenLine, helLine, brokenLine, loLine] ++ [doneLine]) [], GoError.EOF⟩ =
      ("Hello".toList, none) ∧
    listenToSSEStream jsonUnmarshal
      ⟨streamOf [brokenLine, helLine, brokenLine, loLine] [], GoError.EOF⟩ =
      ("Hello".toList, none) := by
  have h1 : ∀ l ∈ [brokenLine, helLine, brokenLine, loLine], '\n' ∉ l := by decide
  have h2 : List.filter (fun l => !isMalformedLine jsonUnmarshal l)
      [brokenLine, helLine, brokenLine, loLine] = [helLine, loLine] := by decide
  have h3 : ∀ l ∈ [helLine, loLine], isTerminator jsonUnmarshal l = false := by decide
  have h4 : ∃ f ∈ fragments jsonUnmarshal [helLine, loLine], f ≠ [] :=
    ⟨"Hel".toList, by decide, by decide⟩
  have h5 : concat (fragments jsonUnmarshal [helLine, loLine]) = "Hello".toList := by decide
  have h6 : '\n' ∉ ([] : GoString) := by decide
  have h := C3_malformed_lines_skipped jsonUnmarshal
    [brokenLine, helLine, brokenLine, loLine] [] GoError.EOF h1
  rw [h2] at h
  obtain ⟨hsame, _, hres⟩ := h
  obtain ⟨hdone, heof⟩ := hres h3 h4
  rw [h5] at hdone heof
  exact ⟨h1, by decide, h2, h3, h4, h6, hsame, hdone, heof h6⟩

/-- C4: EOF alone is not a failure.  For every stream that ends with EOF and whose
lines contain no `data: [DONE]` line and no completion event, if at least one
non-empty delta fragment was captured, `listenToSSEStream` returns success with
exactly the concatenation of the fragments accumulated up to EOF. -/
theorem C4_eof_returns_accumulated_text (um : GoString → Except GoError JSONMap)
    (ls : List GoString) (tail : GoString)
    (hlf : ∀ l ∈ ls, '\n' ∉ l) (htail : '\n' ∉ tail)
    (hterm : ∀ l ∈ ls, isTerminator um l = false)
    (hne : ∃ f ∈ fragments um ls, f ≠ []) :
    listenToSSEStream um ⟨streamOf ls tail, GoError.EOF⟩ = (concat (fragments um ls), none) := by
  have hrun := runLines_no_terminator um ls [] hterm
  rw [List.nil_append] at hrun
  rw [listen_of_next um ls tail GoError.EOF _ hlf htail hrun, if_pos rfl]
  exact finalize_of_ne_nil _ (concat_ne_nil _ hne)

/-- C4 at the stream of the `Hel` and `lo` events ended by EOF. -/
theorem C4_eof_returns_accumulated_text_witness :
    (∀ l ∈ [helLine, loLine], '\n' ∉ l) ∧ '\n' ∉ ([] : GoString) ∧
    (∀ l ∈ [helLine, loLine], isTerminator jsonUnmarshal l = false) ∧
    (∃ f ∈ fragments jsonUnmarshal [helLine, loLine], f ≠ []) ∧
    listenToSSEStream jsonUnmarshal ⟨streamOf [helLine, loLine] [], GoError.EOF⟩ =
      ("Hello".toList, none) := by
  have h1 : ∀ l ∈ [helLine, loLine], '\n' ∉ l := by decide
  have h2 : '\n' ∉ ([] : GoString) := by decide
  have h3 : ∀ l ∈ [helLine, loLine], isTerminator jsonUnmarshal l = false := by decide
  have h4 : ∃ f ∈ fragments jsonUnmarshal [helLine, loLine], f ≠ [] :=
    ⟨"Hel".toList, by decide, by decide⟩
  have h5 : concat (fragments jsonUnmarshal [helLine, loLine]) = "Hello".toList := by decide
  refine ⟨h1, h2, h3, h4, ?_⟩
  rw [C4_eof_returns_accumulated_text jsonUnmarshal [helLine, loLine] [] h1 h2 h3 h4, h5]

/-- C5: a non-EOF read error is a hard failure that discards the accumulated text.
For every stream whose lines contain no terminator and whose transport reports a
non-EOF error, `listenToSSEStream` returns the empty text together with the read
error, whatever fragments the lines carry. -/
theorem C5_read_error_discards_text (um : GoString → Except GoError JSONMap)
    (ls : List GoString) (tail : GoString) (err : GoError)
    (hlf : ∀ l ∈ ls, '\n' ∉ l) (htail : '\n' ∉ tail)
    (hterm : ∀ l ∈ ls, isTerminator um l = false)
    (herr : err ≠ GoError.EOF) :
    listenToSSEStream um ⟨streamOf ls tail, err⟩ = ([], some (readError err)) := by
  have hrun := runLines_no_terminator um ls [] hterm
  rw [listen_of_next um ls tail err _ hlf htail hrun, if_neg herr]

/-- C5 at the stream of the `Hel` and `lo` events whose next read fails. -/
theorem C5_read_error_discards_text_witness :
    (∀ l ∈ [helLine, loLine], '\n' ∉ l) ∧ '\n' ∉ doneLine ∧
    (∀ l ∈ [helLine, loLine], isTerminator jsonUnmarshal l = false) ∧
    GoError.errorString "connection reset".toList ≠ GoError.EOF ∧
    listenToSSEStream jsonUnmarshal
      ⟨streamOf [helLine, loLine] doneLine, GoError.errorString "connection reset".toList⟩ =
      ([], some (GoError.errorString "Ошибка чтения события: connection reset".toList)) := by
  have h1 : ∀ l ∈ [helLine, loLine], '\n' ∉ l := by decide
  have h2 : '\n' ∉ doneLine := by decide
  have h3 : ∀ l ∈ [helLine, loLine], isTerminator jsonUnmarshal l = false := by decide
  have h4 : GoError.errorString "connection reset".toList ≠ GoError.EOF := by decide
  refine ⟨h1, h2, h3, h4, ?_⟩
  rw [C5_read_error_discards_text jsonUnmarshal [helLine, loLine] doneLine _ h1 h2 h3 h4]
  decide

/-- C6 (evaluation of the code): for the stream that ends with zero accumulated text
(a response body that is immediately `data: [DONE]`), the unit of work sends the
generic error message to the chat, not the "no answer" message; the two messages
differ. -/
theorem C6_empty_result_gets_generic_error (um : GoString → Except GoError JSONMap)
    (assistantID vectorStoreID query : GoString) (message : Message) (err : GoError) :
    unitOfWork (envWithBody ⟨streamOf [doneLine] [], err⟩) um assistantID vectorStoreID
        message query =
      { sent := [{ chatID := message.chatID, text := genericErrorMessage }],
        panicked := false } ∧
    genericErrorMessage ≠ noAnswerMessage := by
  refine ⟨?_, by decide⟩
  have hrun : runLines um [doneLine] [] = .stop [] := by
    simp [runLines, processLine_eq, isTerminator_doneLine, lineFragments_doneLine, concat]
  have hl : listenToSSEStream um ⟨streamOf [doneLine] [], err⟩ = ([], some emptyResponseError) := by
    rw [listen_of_stop um [doneLine] [] err [] (by decide) hrun]
    rfl
  simp only [unitOfWork, createAndRunAssistantWithStreaming, envWithBody, hl, sendReply]

/-- C7: for every inbound update whose message has a non-empty text and carries its
sender (`From` is not nil, as the feed loop assumes when it logs the sender before
starting the goroutine) and for every environment (hence every outcome of the
assistant call), the loop body ends without a panic and exactly one message is sent,
addressed to the chat of that update; when the call succeeds with a non-empty answer
the text is that answer, and when the call fails the text is the generic error
message.  The unit of work itself sends exactly one such message for every message,
whatever its sender, and so does the reply step for every call result
`(response, err)`. -/
theorem C7_exactly_one_reply (env : Env) (um : GoString → Except GoError JSONMap)
    (assistantID vectorStoreID : GoString) (update : Update) (message : Message)
    (userID : Int)
    (hmsg : update.message = some message) (htext : message.text ≠ [])
    (hfrom : message.fromID = some userID) :
    (∃ text, handleUpdate env um assistantID vectorStoreID update =
        { sent := [{ chatID := message.chatID, text := text }], panicked := false } ∧
      (∀ answer, createAndRunAssistantWithStreaming env um assistantID message.text
          vectorStoreID = (answer, none) → answer ≠ [] → text = answer) ∧
      (∀ response e, createAndRunAssistantWithStreaming env um assistantID message.text
          vectorStoreID = (response, some e) → text = genericErrorMessage)) ∧
    (∀ (other : Message) (query : GoString),
      ∃ text, (unitOfWork env um assistantID vectorStoreID other query).sent =
          [{ chatID := other.chatID, text := text }] ∧
        (∀ answer, createAndRunAssistantWithStreaming env um assistantID query
            vectorStoreID = (answer, none) → answer ≠ [] → text = answer) ∧
        (∀ response e, createAndRunAssistantWithStreaming env um assistantID query
            vectorStoreID = (response, some e) → text = genericErrorMessage)) ∧
    (∀ (other : Message) (response : GoString) (err : Option GoError),
      ∃ text, (sendReply other response err).sent =
          [{ chatID := other.chatID, text := text }] ∧
        (err = none → response ≠ [] → text = response) ∧
        (err ≠ none → text = genericErrorMessage)) := by
  refine ⟨?_, fun other query => unitOfWork_sends_one env um assistantID vectorStoreID other query,
    fun other response err => sendReply_sends_one other response err⟩
  obtain ⟨text, hsent, hok, herr⟩ :=
    unitOfWork_sends_one env um assistantID vectorStoreID message message.text
  have hpanic := unitOfWork_of_sender env um assistantID vectorStoreID message message.text
    userID hfrom
  refine ⟨text, ?_, hok, herr⟩
  unfold handleUpdate
  rw [hmsg]
  simp only [htext, ne_eq, not_false_eq_true, if_true, hfrom]
  cases hrun : unitOfWork env um assistantID vectorStoreID message message.text with
  | mk sent panicked =>
    rw [hrun] at hsent hpanic
    simp only at hsent hpanic
    rw [hsent, hpanic]

/-- C7 at an update of chat 42 sent by user 7: when the HTTP call fails before any
response the generic error message is sent, and when the response streams `Hel`,
`lo` and `data: [DONE]` the answer `Hello` is sent. -/
theorem C7_exactly_one_reply_witness :
    (Update.mk (some ⟨42, some 7, "hi".toList⟩)).message = some ⟨42, some 7, "hi".toList⟩ ∧
    (Message.mk 42 (some 7) "hi".toList).text ≠ [] ∧
    (Message.mk 42 (some 7) "hi".toList).fromID = some 7 ∧
    handleUpdate (envWithFailure (.errorString "dial tcp: timeout".toList)) jsonUnmarshal
        "asst".toList "vs".toList (Update.mk (some ⟨42, some 7, "hi".toList⟩)) =
        { sent := [{ chatID := 42, text := genericErrorMessage }], panicked := false } ∧
    handleUpdate (envWithBody ⟨streamOf [helLine, loLine, doneLine] [], GoError.EOF⟩)
        jsonUnmarshal "asst".toList "vs".toList (Update.mk (some ⟨42, some 7, "hi".toList⟩)) =
        { sent := [{ chatID := 42, text := "Hello".toList }], panicked := false } := by
  have h1 : (Update.mk (some ⟨42, some 7, "hi".toList⟩)).message =
      some ⟨42, some 7, "hi".toList⟩ := rfl
  have h2 : (Message.mk 42 (some 7) "hi".toList).text ≠ [] := by decide
  have h3 : (Message.mk 42 (some 7) "hi".toList).fromID = some 7 := rfl
  have hh : listenToSSEStream jsonUnmarshal
      ⟨streamOf [helLine, loLine, doneLine] [], GoError.EOF⟩ = ("Hello".toList, none) := by
    have hrun : runLines jsonUnmarshal [helLine, loLine, doneLine] [] = .stop "Hello".toList := by
      decide
    rw [listen_of_stop jsonUnmarshal _ [] GoError.EOF _ (by decide) hrun]
    rfl
  refine ⟨h1, h2, h3, ?_, ?_⟩
  · obtain ⟨text, hsent, _, herr⟩ := (C7_exactly_one_reply
      (envWithFailure (.errorString "dial tcp: timeout".toList)) jsonUnmarshal
      "asst".toList "vs".toList _ _ 7 h1 h2 h3).1
    rw [hsent, herr [] _ rfl]
  · obtain ⟨text, hsent, hok, _⟩ := (C7_exactly_one_reply
      (envWithBody ⟨streamOf [helLine, loLine, doneLine] [], GoError.EOF⟩) jsonUnmarshal
      "asst".toList "vs".toList _ _ 7 h1 h2 h3).1
    rw [hsent, hok "Hello".toList hh (by decide)]

/-- C8: reading stops at the first terminator.  For every stream
`pre ++ [t] ++ suf` of LF-terminated lines in which `t` is a `data: [DONE]` line or
carries a `thread.message.completed` event, the result of `listenToSSEStream` is its
result on `pre ++ [t]`, for every text `suf` after the terminator and every error
the transport reports after it. -/
theorem C8_stops_at_first_terminator (um : GoString → Except GoError JSONMap)
    (pre : List GoString) (t suf : GoString) (err : GoError)
    (hlf : ∀ l ∈ pre ++ [t], '\n' ∉ l)
    (ht : isTerminator um t = true) :
    listenToSSEStream um ⟨streamOf (pre ++ [t]) suf, err⟩ =
      listenToSSEStream um ⟨streamOf (pre ++ [t]) [], GoError.EOF⟩ := by
  obtain ⟨fm, hfm⟩ := runLines_terminated um pre t [] ht
  rw [listen_of_stop um _ suf err fm hlf hfm, listen_of_stop um _ [] GoError.EOF fm hlf hfm]

/-- C8 at a completion event followed by a fragment, a malformed tail and a read
error. -/
theorem C8_stops_at_first_terminator_witness :
    (∀ l ∈ [helLine] ++ [completedLine], '\n' ∉ l) ∧
    isTerminator jsonUnmarshal completedLine = true ∧
    listenToSSEStream jsonUnmarshal
      ⟨streamOf ([helLine] ++ [completedLine]) (streamOf [loLine] brokenLine),
        GoError.errorString "connection reset".toList⟩ =
    listenToSSEStream jsonUnmarshal ⟨streamOf ([helLine] ++ [completedLine]) [], GoError.EOF⟩ := by
  have h1 : ∀ l ∈ [helLine] ++ [completedLine], '\n' ∉ l := by decide
  have h2 : isTerminator jsonUnmarshal completedLine = true := by decide
  exact ⟨h1, h2, C8_stops_at_first_terminator jsonUnmarshal [helLine] completedLine _ _ h1 h2⟩

/-- C9 (amended): every line whose text, once its leading and trailing white space
is trimmed, is not prefixed with `data: ` (a blank line included) is ignored:
inserting such an LF-terminated line at any line position of a stream leaves the
result of `listenToSSEStream` unchanged. -/
theorem C9_non_data_line_ignored (um : GoString → Except GoError JSONMap)
    (before after : List GoString) (l rest : GoString) (err : GoError)
    (hlf : ∀ x ∈ before, '\n' ∉ x) (hl : '\n' ∉ l)
    (hnd : HasPrefix (TrimSpace l) "data: ".toList = false) :
    listenToSSEStream um ⟨streamOf (before ++ l :: after) rest, err⟩ =
      listenToSSEStream um ⟨streamOf (before ++ after) rest, err⟩ := by
  have hs : ∀ xs : List GoString, streamOf (before ++ xs) rest =
      streamOf before (streamOf xs rest) := by
    intro xs
    induction before with
    | nil => rfl
    | cons b bs ih => simp [streamOf, ih (fun x hx => hlf x (by simp [hx]))]
  unfold listenToSSEStream
  rw [hs, hs, sseLoop_streamOf um before _ err [] hlf, sseLoop_streamOf um before _ err [] hlf]
  cases runLines um before [] with
  | stop fm => rfl
  | next fm =>
    simp only [streamOf]
    rw [sseLoop_line um l _ err fm hl, processLine_non_data um l fm hnd]

/-- C9 (amended) at a comment line inserted between two events. -/
theorem C9_non_data_line_ignored_witness :
    (∀ x ∈ [helLine], '\n' ∉ x) ∧ '\n' ∉ commentLine ∧
    HasPrefix (TrimSpace commentLine) "data: ".toList = false ∧
    listenToSSEStream jsonUnmarshal
      ⟨streamOf ([helLine] ++ commentLine :: [loLine, doneLine]) [], GoError.EOF⟩ =
    listenToSSEStream jsonUnmarshal
      ⟨streamOf ([helLine] ++ [loLine, doneLine]) [], GoError.EOF⟩ := by
  have h1 : ∀ x ∈ [helLine], '\n' ∉ x := by decide
  have h2 : '\n' ∉ commentLine := by decide
  have h3 : HasPrefix (TrimSpace commentLine) "data: ".toList = false := by decide
  exact ⟨h1, h2, h3,
    C9_non_data_line_ignored jsonUnmarshal [helLine] [loLine, doneLine] commentLine [] _ h1 h2 h3⟩

/-- Counterexample to C9 as stated: the line ` data: [DONE]` is not prefixed with
`data: `, yet inserting it before the `Hel` event changes the result from the text
`Hel` to the empty-response failure. -/
theorem C9_counterexample_indented_line :
    '\n' ∉ indentedDoneLine ∧
    HasPrefix indentedDoneLine "data: ".toList = false ∧
    listenToSSEStream jsonUnmarshal ⟨streamOf [helLine] [], GoError.EOF⟩ =
      ("Hel".toList, none) ∧
    listenToSSEStream jsonUnmarshal ⟨streamOf [indentedDoneLine, helLine] [], GoError.EOF⟩ =
      ([], some emptyResponseError) := by
  refine ⟨by decide, by decide, ?_, ?_⟩
  · have hrun : runLines jsonUnmarshal [helLine] [] = .next "Hel".toList := by decide
    rw [listen_of_next jsonUnmarshal [helLine] [] GoError.EOF _ (by decide) (by decide) hrun]
    rfl
  · have hrun : runLines jsonUnmarshal [indentedDoneLine, helLine] [] = .stop [] := by decide
    rw [listen_of_stop jsonUnmarshal _ [] GoError.EOF _ (by decide) hrun]
    rfl

/-- C10: a final line that is not terminated by a line feed is discarded.  For every
stream whose last code points form a text `tail` without a line feed, the result of
`listenToSSEStream` is its result on the stream without `tail`. -/
theorem C10_unterminated_tail_discarded (um : GoString → Except GoError JSONMap)
    (ls : List GoString) (tail : GoString) (err : GoError)
    (hlf : ∀ l ∈ ls, '\n' ∉ l) (htail : '\n' ∉ tail) :
    listenToSSEStream um ⟨streamOf ls tail, err⟩ =
      listenToSSEStream um ⟨streamOf ls [], err⟩ := by
  cases hr : runLines um ls [] with
  | stop fm => rw [listen_of_stop um ls tail err fm hlf hr, listen_of_stop um ls [] err fm hlf hr]
  | next fm =>
    rw [listen_of_next um ls tail err fm hlf htail hr,
      listen_of_next um ls [] err fm hlf (by simp) hr]

/-- C10 at the `Hel` event followed by an unterminated `lo` event. -/
theorem C10_unterminated_tail_discarded_witness :
    (∀ l ∈ [helLine], '\n' ∉ l) ∧ '\n' ∉ loLine ∧
    listenToSSEStream jsonUnmarshal ⟨streamOf [helLine] loLine, GoError.EOF⟩ =
      listenToSSEStream jsonUnmarshal ⟨streamOf [helLine] [], GoError.EOF⟩ := by
  have h1 : ∀ l ∈ [helLine], '\n' ∉ l := by decide
  have h2 : '\n' ∉ loLine := by decide
  exact ⟨h1, h2, C10_unterminated_tail_discarded jsonUnmarshal [helLine] loLine _ h1 h2⟩

end ProxyApiBot
